import Mathlib

/-!
Verification of the text-storage core of the `fresh` editor against its
specification.

The main object is the shallow embedding of `src/chunk_tree.rs`: the persistent
ternary `ChunkTree` over byte chunks, with `from_slice`, `insert`, `remove` and
`collect_bytes`.  Bytes are modelled as `Nat` (they are opaque data to the
tree), `&[u8]` slices as `List Nat`, `Range<usize>` as a pair `(start, stop)`
of naturals, and `Arc` edges as plain constructor fields (so structural
equality of subtrees in the model corresponds to `Arc`-sharing in the source).
`usize` subtraction appears in the source only where it cannot underflow or as
`saturating_sub`; both coincide with truncated `Nat` subtraction on the
modelled domain.

Later sections embed the marker-based view managers (`conceal.rs`,
`folding.rs`, `soft_break.rs`) and a spec-modelled in-place save pipeline.
-/

namespace Fresh

/-- Node of the chunk tree, from `enum ChunkTreeNode` in `chunk_tree.rs`.
`Leaf` holds borrowed bytes, `Gap` a sparse hole of the given size, and
`Internal` three children plus the cached subtree size. -/
inductive ChunkTreeNode where
  | Leaf (data : List Nat)
  | Gap (size : Nat)
  | Internal (left mid right : ChunkTreeNode) (size : Nat)
deriving Repr, DecidableEq

namespace ChunkTreeNode

/-- `ChunkTreeNode::len`. -/
def nodeLen : ChunkTreeNode → Nat
  | .Leaf data => data.length
  | .Gap size => size
  | .Internal _ _ _ size => size

/-- `ChunkTreeNode::from_slice::<N>`.  The source starts with `assert!(N > 0)`;
the `N = 0` branch below models the panic (it is never taken on the domain of
the claims, which all assume `0 < N`). -/
def fromSlice (N : Nat) (data : List Nat) : ChunkTreeNode :=
  if _h0 : N = 0 then .Leaf data
  else if data.length ≤ N then .Leaf data
  else
    let midIndex := data.length / 2
    .Internal (fromSlice N (data.take midIndex)) (.Leaf [])
      (fromSlice N (data.drop midIndex)) data.length
termination_by data.length
decreasing_by
  · simp only [List.length_take]
    omega
  · simp only [List.length_drop]
    omega

/-- `ChunkTreeNode::insert::<N>`.  The final `panic!` branch of the source is
unreachable whenever `index ≤ self.len()`; it is modelled by an empty leaf. -/
def insert (N : Nat) (t : ChunkTreeNode) (index : Nat) (data : List Nat) :
    ChunkTreeNode :=
  match t with
  | .Leaf leafData =>
      .Internal (fromSlice N (leafData.take index)) (fromSlice N data)
        (fromSlice N (leafData.drop index)) (leafData.length + data.length)
  | .Gap size =>
      let endPadding := size - (index + data.length)
      .Internal (.Gap index) (fromSlice N data) (.Gap endPadding)
        (index + data.length + endPadding)
  | .Internal left mid right _ =>
      let leftSize := nodeLen left
      if index ≤ leftSize then
        let newLeft := insert N left index data
        .Internal newLeft mid right (nodeLen newLeft + nodeLen mid + nodeLen right)
      else if index ≤ leftSize + nodeLen mid then
        let newMid := insert N mid (index - leftSize) data
        .Internal left newMid right (leftSize + nodeLen newMid + nodeLen right)
      else if index ≤ leftSize + nodeLen mid + nodeLen right then
        let newRight := insert N right (index - leftSize - nodeLen mid) data
        .Internal left mid newRight (leftSize + nodeLen mid + nodeLen newRight)
      else
        .Leaf []

/-- `ChunkTreeNode::range_shift_left` (`saturating_sub` on both endpoints). -/
def rangeShiftLeft (r : Nat × Nat) (amount : Nat) : Nat × Nat :=
  (r.1 - amount, r.2 - amount)

/-- `ChunkTreeNode::range_cap`. -/
def rangeCap (r : Nat × Nat) (max : Nat) : Nat × Nat :=
  (min r.1 max, min r.2 max)

/-- `Range::len` for `Range<usize>` (0 when the range is reversed). -/
def rangeLen (r : Nat × Nat) : Nat := r.2 - r.1

/-- `ChunkTreeNode::remove::<N>`. -/
def remove (N : Nat) (t : ChunkTreeNode) (range : Nat × Nat) : ChunkTreeNode :=
  if nodeLen t = 0 ∧ range.2 ≤ range.1 then .Leaf []
  else
    match t with
    | .Leaf data =>
        .Internal (fromSlice N (data.take range.1)) (fromSlice N [])
          (fromSlice N (data.drop range.2)) (data.length - rangeLen range)
    | .Gap size =>
        let newSize := if size ≤ range.1 then size
          else size - (min size range.2 - range.1)
        .Gap newSize
    | .Internal left mid right size =>
        if size < range.1 then .Internal left mid right size
        else
          let newLeft := if range.1 < nodeLen left then
            remove N left (rangeCap range (nodeLen left)) else left
          let midRange := rangeShiftLeft range (nodeLen left)
          let newMid := if midRange.1 < nodeLen mid then
            remove N mid (rangeCap midRange (nodeLen mid)) else mid
          let rightRange := rangeShiftLeft range (nodeLen left + nodeLen mid)
          let newRight := if rightRange.1 < nodeLen right then
            remove N right (rangeCap rightRange (nodeLen right)) else right
          .Internal newLeft newMid newRight
            (nodeLen newLeft + nodeLen newMid + nodeLen newRight)

/-- `ChunkTreeNode::collect_bytes_into`, returning the bytes it appends to the
output vector. -/
def collectBytesInto (gapValue : Nat) : ChunkTreeNode → List Nat
  | .Leaf data => data
  | .Gap size => List.replicate size gapValue
  | .Internal left mid right _ =>
      collectBytesInto gapValue left ++ collectBytesInto gapValue mid ++
        collectBytesInto gapValue right

end ChunkTreeNode

open ChunkTreeNode

/-- `struct ChunkTree<'a, N>` — a reference-counted root. -/
structure ChunkTree (N : Nat) where
  root : ChunkTreeNode
deriving Repr, DecidableEq

namespace ChunkTree

/-- `ChunkTree::from_slice`. -/
def fromSlice (N : Nat) (data : List Nat) : ChunkTree N :=
  ⟨ChunkTreeNode.fromSlice N data⟩

/-- `ChunkTree::new`. -/
def new (N : Nat) : ChunkTree N := fromSlice N []

/-- `ChunkTree::len`. -/
def len {N : Nat} (t : ChunkTree N) : Nat := nodeLen t.root

/-- `ChunkTree::insert` — in-range insert delegates to the node insert, an
index beyond the length performs the sparse insert building an explicit gap. -/
def insert {N : Nat} (t : ChunkTree N) (index : Nat) (data : List Nat) :
    ChunkTree N :=
  if index ≤ t.len then ⟨t.root.insert N index data⟩
  else
    ⟨.Internal t.root (.Gap (index - t.len)) (ChunkTreeNode.fromSlice N data)
      (index + data.length)⟩

/-- `ChunkTree::remove` — the end of the range is clamped to the current
length; a range starting at or past the end is a no-op sharing the root. -/
def remove {N : Nat} (t : ChunkTree N) (range : Nat × Nat) : ChunkTree N :=
  if range.1 < t.len then
    ⟨t.root.remove N (range.1, min (nodeLen t.root) range.2)⟩
  else ⟨t.root⟩

/-- `ChunkTree::collect_bytes`. -/
def collectBytes {N : Nat} (t : ChunkTree N) (gapValue : Nat) : List Nat :=
  t.root.collectBytesInto gapValue

end ChunkTree

/-! ## Structural invariants of chunk trees -/

/-- Every `Internal` node reachable in the tree stores as its cached `size`
exactly `left.len() + mid.len() + right.len()`. -/
def sizesOK : ChunkTreeNode → Bool
  | .Leaf _ => true
  | .Gap _ => true
  | .Internal l m r size =>
      (size == nodeLen l + nodeLen m + nodeLen r) && sizesOK l && sizesOK m &&
        sizesOK r

/-- The tree contains no `Gap` node (it was built without sparse inserts). -/
def gapFree : ChunkTreeNode → Bool
  | .Leaf _ => true
  | .Gap _ => false
  | .Internal l m r _ => gapFree l && gapFree m && gapFree r

/-- Some reachable `Leaf` node carries zero bytes. -/
def hasEmptyLeaf : ChunkTreeNode → Bool
  | .Leaf d => d.isEmpty
  | .Gap _ => false
  | .Internal l m r _ => hasEmptyLeaf l || hasEmptyLeaf m || hasEmptyLeaf r

/-! ## List-splicing oracle helpers -/

/-- Splicing `d` into `v` at offset `i` (the `Vec::splice(i..i, d)` oracle). -/
def spliceIn (v : List Nat) (i : Nat) (d : List Nat) : List Nat :=
  v.take i ++ d ++ v.drop i

/-- Removing the range `s..e` from `v` (the `Vec::splice(s..e, [])` oracle). -/
def spliceOut (v : List Nat) (s e : Nat) : List Nat :=
  v.take s ++ v.drop e

theorem spliceIn_append_left {a b d : List Nat} {i : Nat} (h : i ≤ a.length) :
    spliceIn (a ++ b) i d = spliceIn a i d ++ b := by
  simp only [spliceIn, List.take_append_eq_append_take,
    List.drop_append_eq_append_drop, Nat.sub_eq_zero_of_le h, List.take_zero,
    List.drop_zero, List.append_nil, List.append_assoc]

theorem spliceIn_append_right {a b d : List Nat} {i : Nat} (h : a.length ≤ i) :
    spliceIn (a ++ b) i d = a ++ spliceIn b (i - a.length) d := by
  simp only [spliceIn, List.take_append_eq_append_take,
    List.drop_append_eq_append_drop, List.take_of_length_le h,
    List.drop_eq_nil_of_le h, List.nil_append, List.append_assoc]

theorem spliceOut_append (a b : List Nat) (s e : Nat) (hse : s ≤ e) :
    spliceOut (a ++ b) s e =
      spliceOut a (min s a.length) (min e a.length) ++
        spliceOut b (s - a.length) (e - a.length) := by
  rcases Nat.le_total e a.length with he | he
  · have hs : s ≤ a.length := le_trans hse he
    simp [spliceOut, List.take_append_eq_append_take,
      List.drop_append_eq_append_drop, Nat.min_eq_left hs, Nat.min_eq_left he,
      Nat.sub_eq_zero_of_le hs, Nat.sub_eq_zero_of_le he]
  · rcases Nat.le_total s a.length with hs | hs
    · simp [spliceOut, List.take_append_eq_append_take,
        List.drop_append_eq_append_drop, Nat.min_eq_left hs,
        Nat.min_eq_right he, Nat.sub_eq_zero_of_le hs,
        List.drop_eq_nil_of_le he]
    · simp [spliceOut, List.take_append_eq_append_take,
        List.drop_append_eq_append_drop, Nat.min_eq_right hs,
        Nat.min_eq_right he, List.take_of_length_le hs,
        List.drop_eq_nil_of_le hs, List.drop_eq_nil_of_le he]

theorem spliceOut_of_length_le {v : List Nat} {s e : Nat}
    (hs : v.length ≤ s) (he : v.length ≤ e) : spliceOut v s e = v := by
  simp [spliceOut, List.take_of_length_le hs, List.drop_eq_nil_of_le he]

/-! ## Facts about `from_slice` -/

namespace ChunkTreeNode

theorem fromSlice_len (N : Nat) (d : List Nat) :
    nodeLen (fromSlice N d) = d.length := by
  induction d using fromSlice.induct N with
  | case1 d h => rw [fromSlice]; simp [h, nodeLen]
  | case2 d h h2 => rw [fromSlice]; simp [h, h2, nodeLen]
  | case3 d h h2 m ih1 ih2 => rw [fromSlice]; simp [h, h2, nodeLen]

theorem fromSlice_collect (N : Nat) (d : List Nat) (g : Nat) :
    collectBytesInto g (fromSlice N d) = d := by
  induction d using fromSlice.induct N with
  | case1 d h => rw [fromSlice]; simp [h, collectBytesInto]
  | case2 d h h2 => rw [fromSlice]; simp [h, h2, collectBytesInto]
  | case3 d h h2 m ih1 ih2 =>
      rw [fromSlice]
      simp only [h, h2, dite_false, if_false, dite_eq_ite, ite_false,
        collectBytesInto]
      rw [ih1, ih2]
      simp [List.take_append_drop]

theorem fromSlice_sizesOK (N : Nat) (d : List Nat) :
    sizesOK (fromSlice N d) = true := by
  induction d using fromSlice.induct N with
  | case1 d h => rw [fromSlice]; simp [h, sizesOK]
  | case2 d h h2 => rw [fromSlice]; simp [h, h2, sizesOK]
  | case3 d h h2 m ih1 ih2 =>
      rw [fromSlice]
      simp only [h, h2, dite_false, if_false, dite_eq_ite, ite_false, sizesOK,
        Bool.and_eq_true, beq_iff_eq]
      refine ⟨⟨⟨?_, ih1⟩, by simp [sizesOK]⟩, ih2⟩
      rw [fromSlice_len, fromSlice_len]
      simp only [nodeLen, List.length_take, List.length_drop, List.length_nil]
      omega

theorem fromSlice_gapFree (N : Nat) (d : List Nat) :
    gapFree (fromSlice N d) = true := by
  induction d using fromSlice.induct N with
  | case1 d h => rw [fromSlice]; simp [h, gapFree]
  | case2 d h h2 => rw [fromSlice]; simp [h, h2, gapFree]
  | case3 d h h2 m ih1 ih2 =>
      rw [fromSlice]
      simp only [h, h2, dite_false, if_false, dite_eq_ite, ite_false, gapFree,
        Bool.and_eq_true]
      exact ⟨⟨ih1, by simp [gapFree]⟩, ih2⟩

/-- For a tree with consistent cached sizes, `len()` equals the length of the
collected bytes (gaps collect to `size` filler bytes). -/
theorem length_collect_of_sizesOK {t : ChunkTreeNode} (h : sizesOK t = true)
    (g : Nat) : (collectBytesInto g t).length = nodeLen t := by
  induction t with
  | Leaf d => simp [collectBytesInto, nodeLen]
  | Gap s => simp [collectBytesInto, nodeLen]
  | Internal l m r size ihl ihm ihr =>
      simp only [sizesOK, Bool.and_eq_true, beq_iff_eq] at h
      obtain ⟨⟨⟨hs, hl⟩, hm⟩, hr⟩ := h
      have hI : nodeLen (ChunkTreeNode.Internal l m r size) = size := rfl
      rw [hI, hs]
      simp only [collectBytesInto, List.length_append, ihl hl, ihm hm, ihr hr]

end ChunkTreeNode

theorem spliceOut_min (v : List Nat) (s e : Nat) :
    spliceOut v (min s v.length) (min e v.length) = spliceOut v s e := by
  unfold spliceOut
  congr 1
  · rcases Nat.le_total s v.length with h | h
    · rw [Nat.min_eq_left h]
    · rw [Nat.min_eq_right h, List.take_length, List.take_of_length_le h]
  · rcases Nat.le_total e v.length with h | h
    · rw [Nat.min_eq_left h]
    · rw [Nat.min_eq_right h, List.drop_length, List.drop_eq_nil_of_le h]

/-! ## Behaviour of `ChunkTreeNode::insert` -/

namespace ChunkTreeNode

/-- Node-level insert always rebuilds consistent cached sizes. -/
theorem insert_sizesOK (N : Nat) (t : ChunkTreeNode) :
    sizesOK t = true → ∀ i d, sizesOK (t.insert N i d) = true := by
  induction t with
  | Leaf ld =>
      intro _ i d
      simp only [insert, sizesOK, Bool.and_eq_true, beq_iff_eq]
      refine ⟨⟨⟨?_, fromSlice_sizesOK N _⟩, fromSlice_sizesOK N _⟩,
        fromSlice_sizesOK N _⟩
      rw [fromSlice_len, fromSlice_len, fromSlice_len]
      simp only [List.length_take, List.length_drop]
      omega
  | Gap s =>
      intro _ i d
      simp only [insert, sizesOK, fromSlice_sizesOK, Bool.and_eq_true,
        beq_iff_eq, and_true, true_and]
      rw [fromSlice_len]
      simp only [nodeLen]
  | Internal l m r size ihl ihm ihr =>
      intro h i d
      simp only [sizesOK, Bool.and_eq_true, beq_iff_eq] at h
      obtain ⟨⟨⟨_, hl⟩, hm⟩, hr⟩ := h
      simp only [insert]
      split
      · simp only [sizesOK, Bool.and_eq_true, beq_iff_eq, beq_self_eq_true,
          true_and]
        exact ⟨⟨ihl hl i d, hm⟩, hr⟩
      · split
        · simp only [sizesOK, Bool.and_eq_true, beq_iff_eq, beq_self_eq_true,
            true_and]
          exact ⟨⟨hl, ihm hm _ d⟩, hr⟩
        · split
          · simp only [sizesOK, Bool.and_eq_true, beq_iff_eq,
              beq_self_eq_true, true_and]
            exact ⟨⟨hl, hm⟩, ihr hr _ d⟩
          · simp [sizesOK]

/-- Node-level insert never creates a `Gap` in a gap-free tree. -/
theorem insert_gapFree (N : Nat) (t : ChunkTreeNode) :
    gapFree t = true → ∀ i d, gapFree (t.insert N i d) = true := by
  induction t with
  | Leaf ld =>
      intro _ i d
      simp only [insert, gapFree, Bool.and_eq_true]
      exact ⟨⟨fromSlice_gapFree N _, fromSlice_gapFree N _⟩,
        fromSlice_gapFree N _⟩
  | Gap s => intro h; simp [gapFree] at h
  | Internal l m r size ihl ihm ihr =>
      intro h i d
      simp only [gapFree, Bool.and_eq_true] at h
      obtain ⟨⟨hl, hm⟩, hr⟩ := h
      simp only [insert]
      split
      · simp only [gapFree, Bool.and_eq_true]
        exact ⟨⟨ihl hl i d, hm⟩, hr⟩
      · split
        · simp only [gapFree, Bool.and_eq_true]
          exact ⟨⟨hl, ihm hm _ d⟩, hr⟩
        · split
          · simp only [gapFree, Bool.and_eq_true]
            exact ⟨⟨hl, hm⟩, ihr hr _ d⟩
          · simp [gapFree]

/-- In-range node-level insert splices the new bytes into the collected
document, for gap-free trees with consistent sizes. -/
theorem insert_collect (N : Nat) (t : ChunkTreeNode) (g : Nat) :
    sizesOK t = true → gapFree t = true → ∀ i d, i ≤ nodeLen t →
      collectBytesInto g (t.insert N i d) =
        spliceIn (collectBytesInto g t) i d := by
  induction t with
  | Leaf ld =>
      intro _ _ i d _
      simp only [insert, collectBytesInto, fromSlice_collect, spliceIn]
  | Gap s => intro _ hg; simp [gapFree] at hg
  | Internal l m r size ihl ihm ihr =>
      intro hs hg i d hi
      simp only [sizesOK, Bool.and_eq_true, beq_iff_eq] at hs
      obtain ⟨⟨⟨hsz, hsl⟩, hsm⟩, hsr⟩ := hs
      simp only [gapFree, Bool.and_eq_true] at hg
      obtain ⟨⟨hgl, hgm⟩, hgr⟩ := hg
      have hLl : (collectBytesInto g l).length = nodeLen l :=
        length_collect_of_sizesOK hsl g
      have hLm : (collectBytesInto g m).length = nodeLen m :=
        length_collect_of_sizesOK hsm g
      have hi' : i ≤ nodeLen l + nodeLen m + nodeLen r := by
        have : nodeLen (ChunkTreeNode.Internal l m r size) = size := rfl
        omega
      simp only [insert]
      by_cases hc1 : i ≤ nodeLen l
      · rw [if_pos hc1]
        simp only [collectBytesInto, ihl hsl hgl i d hc1, List.append_assoc]
        rw [spliceIn_append_left (by omega)]
      · rw [if_neg hc1]
        by_cases hc2 : i ≤ nodeLen l + nodeLen m
        · rw [if_pos hc2]
          simp only [collectBytesInto, ihm hsm hgm (i - nodeLen l) d (by omega),
            List.append_assoc]
          rw [spliceIn_append_right (a := collectBytesInto g l) (by omega)]
          rw [hLl]
          rw [spliceIn_append_left (a := collectBytesInto g m)
            (i := i - nodeLen l) (by omega)]
        · rw [if_neg hc2]
          have hc3 : i ≤ nodeLen l + nodeLen m + nodeLen r := by omega
          rw [if_pos hc3]
          simp only [collectBytesInto,
            ihr hsr hgr (i - nodeLen l - nodeLen m) d (by omega),
            List.append_assoc]
          rw [spliceIn_append_right (a := collectBytesInto g l) (by omega)]
          rw [hLl]
          rw [spliceIn_append_right (a := collectBytesInto g m) (by omega)]
          rw [hLm]

/-! ## Behaviour of `ChunkTreeNode::remove` -/

/-- Node-level remove rebuilds consistent cached sizes, for well-formed
ranges. -/
theorem remove_sizesOK (N : Nat) (t : ChunkTreeNode) :
    sizesOK t = true → ∀ s e, s ≤ e → e ≤ nodeLen t →
      sizesOK (t.remove N (s, e)) = true := by
  induction t with
  | Leaf data =>
      intro _ s e hse he
      simp only [nodeLen] at he
      simp only [remove]
      split
      · simp [sizesOK]
      · simp only [sizesOK, fromSlice_sizesOK, Bool.and_eq_true, beq_iff_eq,
          and_true, true_and]
        rw [fromSlice_len, fromSlice_len, fromSlice_len]
        simp only [rangeLen, List.length_take, List.length_drop,
          List.length_nil]
        omega
  | Gap size =>
      intro _ s e _ _
      simp only [remove]
      split
      · simp [sizesOK]
      · simp [sizesOK]
  | Internal l m r size ihl ihm ihr =>
      intro h s e hse he
      simp only [nodeLen] at he
      simp only [sizesOK, Bool.and_eq_true, beq_iff_eq] at h
      obtain ⟨⟨⟨hsz, hl⟩, hm⟩, hr⟩ := h
      simp only [remove, rangeCap, rangeShiftLeft]
      split
      · simp [sizesOK]
      · rw [if_neg (by omega : ¬ size < (s, e).1)]
        simp only [sizesOK, Bool.and_eq_true, beq_iff_eq, beq_self_eq_true,
          true_and]
        refine ⟨⟨?_, ?_⟩, ?_⟩
        · by_cases hcl : (s, e).1 < nodeLen l
          · rw [if_pos hcl]
            exact ihl hl _ _ (by omega) (by omega)
          · rw [if_neg hcl]; exact hl
        · by_cases hcm : ((s, e).1 - nodeLen l, (s, e).2 - nodeLen l).1 < nodeLen m
          · rw [if_pos hcm]
            simp only [Prod.fst, Prod.snd] at hcm ⊢
            exact ihm hm _ _ (by omega) (by omega)
          · rw [if_neg hcm]; exact hm
        · by_cases hcr : ((s, e).1 - (nodeLen l + nodeLen m),
              (s, e).2 - (nodeLen l + nodeLen m)).1 < nodeLen r
          · rw [if_pos hcr]
            simp only [Prod.fst, Prod.snd] at hcr ⊢
            exact ihr hr _ _ (by omega) (by omega)
          · rw [if_neg hcr]; exact hr

/-- Node-level remove never creates a `Gap` in a gap-free tree. -/
theorem remove_gapFree (N : Nat) (t : ChunkTreeNode) :
    gapFree t = true → ∀ range, gapFree (t.remove N range) = true := by
  induction t with
  | Leaf data =>
      intro _ range
      simp only [remove]
      split
      · simp [gapFree]
      · simp only [gapFree, Bool.and_eq_true]
        exact ⟨⟨fromSlice_gapFree N _, fromSlice_gapFree N _⟩,
          fromSlice_gapFree N _⟩
  | Gap size => intro h; simp [gapFree] at h
  | Internal l m r size ihl ihm ihr =>
      intro h range
      simp only [gapFree, Bool.and_eq_true] at h
      obtain ⟨⟨hl, hm⟩, hr⟩ := h
      simp only [remove]
      split
      · simp [gapFree]
      · split
        · simp only [gapFree, Bool.and_eq_true]
          exact ⟨⟨hl, hm⟩, hr⟩
        · simp only [gapFree, Bool.and_eq_true]
          refine ⟨⟨?_, ?_⟩, ?_⟩
          · split
            · exact ihl hl _
            · exact hl
          · split
            · exact ihm hm _
            · exact hm
          · split
            · exact ihr hr _
            · exact hr

/-- Node-level remove splices the range out of the collected document, for
trees with consistent sizes and well-formed ranges. -/
theorem remove_collect (N : Nat) (t : ChunkTreeNode) (g : Nat) :
    sizesOK t = true → ∀ s e, s ≤ e → e ≤ nodeLen t →
      collectBytesInto g (t.remove N (s, e)) =
        spliceOut (collectBytesInto g t) s e := by
  induction t with
  | Leaf data =>
      intro _ s e hse he
      simp only [nodeLen] at he
      simp only [remove]
      split
      · rename_i h0
        obtain ⟨h1, _⟩ := h0
        simp only [nodeLen] at h1
        have hd : data = [] := List.eq_nil_of_length_eq_zero h1
        subst hd
        simp [collectBytesInto, spliceOut]
      · simp [collectBytesInto, fromSlice_collect, spliceOut]
  | Gap size =>
      intro _ s e hse he
      simp only [nodeLen] at he
      simp only [remove]
      split
      · rename_i h0
        obtain ⟨h1, _⟩ := h0
        simp only [nodeLen] at h1
        subst h1
        simp [collectBytesInto, spliceOut]
      · simp only [collectBytesInto, spliceOut, List.take_replicate,
          List.drop_replicate]
        rw [← List.replicate_add]
        congr 1
        split
        · omega
        · omega
  | Internal l m r size ihl ihm ihr =>
      intro h s e hse he
      simp only [nodeLen] at he
      have hOK := h
      simp only [sizesOK, Bool.and_eq_true, beq_iff_eq] at h
      obtain ⟨⟨⟨hsz, hl⟩, hm⟩, hr⟩ := h
      have hLl : (collectBytesInto g l).length = nodeLen l :=
        length_collect_of_sizesOK hl g
      have hLm : (collectBytesInto g m).length = nodeLen m :=
        length_collect_of_sizesOK hm g
      have hLr : (collectBytesInto g r).length = nodeLen r :=
        length_collect_of_sizesOK hr g
      simp only [remove, rangeCap, rangeShiftLeft]
      split
      · rename_i h0
        obtain ⟨h1, _⟩ := h0
        simp only [nodeLen] at h1
        have hnil : collectBytesInto g (ChunkTreeNode.Internal l m r size)
            = [] := by
          apply List.eq_nil_of_length_eq_zero
          rw [length_collect_of_sizesOK hOK]
          exact h1
        rw [hnil]
        simp [collectBytesInto, spliceOut]
      · rw [if_neg (by omega : ¬ size < s)]
        have hA : collectBytesInto g (if s < nodeLen l then
              remove N l (min s (nodeLen l), min e (nodeLen l)) else l)
            = spliceOut (collectBytesInto g l) (min s (nodeLen l))
                (min e (nodeLen l)) := by
          by_cases hc : s < nodeLen l
          · rw [if_pos hc]
            exact ihl hl _ _ (by omega) (by omega)
          · rw [if_neg hc]
            rw [Nat.min_eq_right (by omega : nodeLen l ≤ s),
              Nat.min_eq_right (by omega : nodeLen l ≤ e)]
            exact (spliceOut_of_length_le (by omega) (by omega)).symm
        have hB : collectBytesInto g (if s - nodeLen l < nodeLen m then
              remove N m (min (s - nodeLen l) (nodeLen m),
                min (e - nodeLen l) (nodeLen m)) else m)
            = spliceOut (collectBytesInto g m) (min (s - nodeLen l) (nodeLen m))
                (min (e - nodeLen l) (nodeLen m)) := by
          by_cases hc : s - nodeLen l < nodeLen m
          · rw [if_pos hc]
            exact ihm hm _ _ (by omega) (by omega)
          · rw [if_neg hc]
            rw [Nat.min_eq_right (by omega : nodeLen m ≤ s - nodeLen l),
              Nat.min_eq_right (by omega : nodeLen m ≤ e - nodeLen l)]
            exact (spliceOut_of_length_le (by omega) (by omega)).symm
        have hC : collectBytesInto g
              (if s - (nodeLen l + nodeLen m) < nodeLen r then
                remove N r (min (s - (nodeLen l + nodeLen m)) (nodeLen r),
                  min (e - (nodeLen l + nodeLen m)) (nodeLen r)) else r)
            = spliceOut (collectBytesInto g r)
                (min (s - (nodeLen l + nodeLen m)) (nodeLen r))
                (min (e - (nodeLen l + nodeLen m)) (nodeLen r)) := by
          by_cases hc : s - (nodeLen l + nodeLen m) < nodeLen r
          · rw [if_pos hc]
            exact ihr hr _ _ (by omega) (by omega)
          · rw [if_neg hc]
            rw [Nat.min_eq_right (by omega :
                nodeLen r ≤ s - (nodeLen l + nodeLen m)),
              Nat.min_eq_right (by omega :
                nodeLen r ≤ e - (nodeLen l + nodeLen m))]
            exact (spliceOut_of_length_le (by omega) (by omega)).symm
        simp only [collectBytesInto, hA, hB, hC, List.append_assoc]
        rw [spliceOut_append _ _ _ _ hse, hLl,
          spliceOut_append _ _ _ _ (by omega : s - nodeLen l ≤ e - nodeLen l),
          hLm, Nat.sub_sub, Nat.sub_sub,
          ← spliceOut_min (collectBytesInto g r) (s - (nodeLen l + nodeLen m))
            (e - (nodeLen l + nodeLen m)), hLr]

end ChunkTreeNode

/-! ## Tree-level behaviour -/

namespace ChunkTree

theorem len_eq_length_collect {N : Nat} (t : ChunkTree N) (g : Nat)
    (h : sizesOK t.root = true) : t.len = (t.collectBytes g).length :=
  (ChunkTreeNode.length_collect_of_sizesOK h g).symm

theorem tree_insert_sizesOK {N : Nat} (t : ChunkTree N) (i : Nat) (d : List Nat)
    (h : sizesOK t.root = true) : sizesOK (t.insert i d).root = true := by
  unfold insert
  split
  · exact ChunkTreeNode.insert_sizesOK N t.root h i d
  · rename_i hc
    simp only [sizesOK, Bool.and_eq_true, beq_iff_eq,
      ChunkTreeNode.fromSlice_sizesOK, and_true, true_and]
    refine ⟨?_, h⟩
    rw [ChunkTreeNode.fromSlice_len]
    simp only [nodeLen, len] at hc ⊢
    omega

theorem tree_insert_gapFree {N : Nat} (t : ChunkTree N) (i : Nat) (d : List Nat)
    (h : gapFree t.root = true) (hi : i ≤ t.len) :
    gapFree (t.insert i d).root = true := by
  unfold insert
  rw [if_pos hi]
  exact ChunkTreeNode.insert_gapFree N t.root h i d

theorem tree_insert_collect {N : Nat} (t : ChunkTree N) (i : Nat) (d : List Nat)
    (g : Nat) (hs : sizesOK t.root = true) (hg : gapFree t.root = true)
    (hi : i ≤ t.len) :
    (t.insert i d).collectBytes g = spliceIn (t.collectBytes g) i d := by
  unfold insert
  rw [if_pos hi]
  exact ChunkTreeNode.insert_collect N t.root g hs hg i d hi

theorem tree_remove_sizesOK {N : Nat} (t : ChunkTree N) (s e : Nat)
    (h : sizesOK t.root = true) (hse : s ≤ e) :
    sizesOK (t.remove (s, e)).root = true := by
  unfold remove
  split
  · rename_i hc
    simp only [len] at hc
    exact ChunkTreeNode.remove_sizesOK N t.root h s (min (nodeLen t.root) e)
      (by omega) (by omega)
  · exact h

theorem tree_remove_gapFree {N : Nat} (t : ChunkTree N) (s e : Nat)
    (h : gapFree t.root = true) : gapFree (t.remove (s, e)).root = true := by
  unfold remove
  split
  · exact ChunkTreeNode.remove_gapFree N t.root h _
  · exact h

theorem tree_remove_collect {N : Nat} (t : ChunkTree N) (s e : Nat) (g : Nat)
    (hs : sizesOK t.root = true) (hse : s ≤ e) :
    (t.remove (s, e)).collectBytes g =
      spliceOut (t.collectBytes g) s (min e (t.collectBytes g).length) := by
  have hlen : (t.collectBytes g).length = t.len :=
    ChunkTreeNode.length_collect_of_sizesOK hs g
  simp only [collectBytes, len] at hlen
  unfold remove
  split
  · rename_i hc
    simp only [len] at hc
    have := ChunkTreeNode.remove_collect N t.root g hs s
      (min (nodeLen t.root) e) (by omega) (by omega)
    simp only [collectBytes, len] at this ⊢
    rw [this, hlen, Nat.min_comm]
  · rename_i hc
    simp only [len] at hc
    simp only [collectBytes]
    rw [spliceOut_of_length_le (by omega) (by omega)]

end ChunkTree

/-! ## Operation sequences and the naive `Vec<u8>` oracle -/

/-- A buffer operation: `insert(index, data)` or `remove(s..e)`. -/
inductive BufOp where
  | ins (index : Nat) (data : List Nat)
  | del (s e : Nat)
deriving Repr, DecidableEq

/-- The naive `Vec<u8>` oracle: an insert splices the bytes in at the offset,
a delete splices out the range clamped to the end of the vector (exactly the
reference computation of `test_insert_all_ranges` / `test_remove_all_ranges`). -/
def oracleApply (v : List Nat) : BufOp → List Nat
  | .ins i d => v.take i ++ d ++ v.drop i
  | .del s e => v.take s ++ v.drop (min e v.length)

/-- Run a whole operation sequence on the oracle. -/
def oracleRun (v : List Nat) (ops : List BufOp) : List Nat :=
  ops.foldl oracleApply v

/-- Apply one operation to a `ChunkTree`. -/
def treeApply {N : Nat} (t : ChunkTree N) : BufOp → ChunkTree N
  | .ins i d => t.insert i d
  | .del s e => t.remove (s, e)

/-- Run a whole operation sequence on a `ChunkTree`. -/
def treeRun {N : Nat} (t : ChunkTree N) (ops : List BufOp) : ChunkTree N :=
  ops.foldl treeApply t

/-- Every insert lands at an offset at most the current length, and every
delete starts inside the document with a well-formed range (checked against
the evolving oracle state). -/
def opsInBounds : List Nat → List BufOp → Bool
  | _, [] => true
  | v, op :: rest =>
      (match op with
        | .ins i _ => decide (i ≤ v.length)
        | .del s e => decide (s < v.length) && decide (s ≤ e)) &&
        opsInBounds (oracleApply v op) rest

/-- Every delete in the sequence has a well-formed (non-reversed) range. -/
def delRangesWF : List BufOp → Bool
  | [] => true
  | .ins _ _ :: rest => delRangesWF rest
  | .del s e :: rest => decide (s ≤ e) && delRangesWF rest

theorem treeRun_oracle {N : Nat} (g : Nat) (ops : List BufOp) :
    ∀ (t : ChunkTree N) (v : List Nat), sizesOK t.root = true →
      gapFree t.root = true → t.collectBytes g = v →
      opsInBounds v ops = true →
      (treeRun t ops).collectBytes g = oracleRun v ops ∧
        sizesOK (treeRun t ops).root = true ∧
        gapFree (treeRun t ops).root = true := by
  induction ops with
  | nil => intro t v hs hg hv _; exact ⟨hv, hs, hg⟩
  | cons op rest ih =>
      intro t v hs hg hv hops
      have hlen : t.len = v.length := by
        rw [ChunkTree.len_eq_length_collect t g hs, hv]
      have htree : treeRun t (op :: rest) = treeRun (treeApply t op) rest := rfl
      have horacle : oracleRun v (op :: rest) =
          oracleRun (oracleApply v op) rest := rfl
      rw [htree, horacle]
      cases op with
      | ins i d =>
          simp only [opsInBounds, Bool.and_eq_true, decide_eq_true_eq] at hops
          obtain ⟨hi, hrest⟩ := hops
          have hi' : i ≤ t.len := by omega
          refine ih (t.insert i d) (oracleApply v (.ins i d))
            (ChunkTree.tree_insert_sizesOK t i d hs)
            (ChunkTree.tree_insert_gapFree t i d hg hi') ?_ hrest
          rw [ChunkTree.tree_insert_collect t i d g hs hg hi', hv]
          rfl
      | del s e =>
          simp only [opsInBounds, Bool.and_eq_true, decide_eq_true_eq] at hops
          obtain ⟨⟨_, hse⟩, hrest⟩ := hops
          refine ih (t.remove (s, e)) (oracleApply v (.del s e))
            (ChunkTree.tree_remove_sizesOK t s e hs hse)
            (ChunkTree.tree_remove_gapFree t s e hg) ?_ hrest
          rw [ChunkTree.tree_remove_collect t s e g hs hse, hv]
          rfl

theorem treeRun_sizesOK {N : Nat} (ops : List BufOp) :
    ∀ t : ChunkTree N, sizesOK t.root = true → delRangesWF ops = true →
      sizesOK (treeRun t ops).root = true := by
  induction ops with
  | nil => intro t hs _; exact hs
  | cons op rest ih =>
      intro t hs hwf
      have htree : treeRun t (op :: rest) = treeRun (treeApply t op) rest := rfl
      rw [htree]
      cases op with
      | ins i d =>
          simp only [delRangesWF] at hwf
          exact ih (t.insert i d) (ChunkTree.tree_insert_sizesOK t i d hs) hwf
      | del s e =>
          simp only [delRangesWF, Bool.and_eq_true, decide_eq_true_eq] at hwf
          obtain ⟨hse, hwf⟩ := hwf
          exact ih (t.remove (s, e)) (ChunkTree.tree_remove_sizesOK t s e hs hse) hwf

/-! ## Marker-based view managers (`conceal.rs`, `folding.rs`, `soft_break.rs`)

The view managers store marker ids obtained from `MarkerList::create`.
`model/marker.rs` itself is not part of the source tree, so the marker list is
modelled from the spec (§3, §4.3). -/

/-- A marker: a byte position plus an affinity.  `leftAffinity = true` is
left affinity (stays before an insertion point), `false` is right affinity
(moves past it) — the boolean convention documented at every `create` call
site of the three managers. -/
structure MarkerEntry where
  pos : Nat
  leftAffinity : Bool
deriving Repr, DecidableEq

/-- Modelled from the spec: the marker index maps `MarkerId → (position,
affinity)`; ids are dense integers (`model/marker.rs` is not in the source
tree). -/
structure MarkerList where
  entries : List (Nat × MarkerEntry)
  nextId : Nat
deriving Repr, DecidableEq

/-- Modelled from the spec: `MarkerList::create(position, affinity) →
MarkerId` registers a fresh marker with the given position and affinity. -/
def MarkerList.create (ml : MarkerList) (pos : Nat) (leftAffinity : Bool) :
    Nat × MarkerList :=
  (ml.nextId,
    ⟨ml.entries ++ [(ml.nextId, ⟨pos, leftAffinity⟩)], ml.nextId + 1⟩)

/-- `struct ConcealRange` (`conceal.rs`); `OverlayNamespace` is modelled as a
natural, replacement text as optional bytes. -/
structure ConcealRange where
  namespaceId : Nat
  startMarker : Nat
  endMarker : Nat
  replacement : Option (List Nat)
deriving Repr, DecidableEq

/-- `struct ConcealManager`. -/
structure ConcealManager where
  ranges : List ConcealRange
deriving Repr, DecidableEq

/-- `ConcealManager::add`: creates the start marker with left affinity and
the end marker with right affinity, then pushes the range. -/
def ConcealManager.add (cm : ConcealManager) (ml : MarkerList) (ns : Nat)
    (range : Nat × Nat) (replacement : Option (List Nat)) :
    ConcealManager × MarkerList :=
  let c1 := ml.create range.1 true
  let c2 := c1.2.create range.2 false
  (⟨cm.ranges ++ [⟨ns, c1.1, c2.1, replacement⟩]⟩, c2.2)

/-- `struct FoldRange` (`folding.rs`). -/
structure FoldRange where
  startMarker : Nat
  endMarker : Nat
  placeholder : Option (List Nat)
deriving Repr, DecidableEq

/-- `struct FoldManager`. -/
structure FoldManager where
  ranges : List FoldRange
deriving Repr, DecidableEq

/-- `FoldManager::add`: rejects empty ranges, otherwise creates the start
marker with left affinity and the end marker with right affinity. -/
def FoldManager.add (fm : FoldManager) (ml : MarkerList) (start stop : Nat)
    (placeholder : Option (List Nat)) : FoldManager × MarkerList :=
  if stop ≤ start then (fm, ml)
  else
    let c1 := ml.create start true
    let c2 := c1.2.create stop false
    (⟨fm.ranges ++ [⟨c1.1, c2.1, placeholder⟩]⟩, c2.2)

/-- `struct SoftBreakPoint` (`soft_break.rs`). -/
structure SoftBreakPoint where
  namespaceId : Nat
  markerId : Nat
  indent : Nat
deriving Repr, DecidableEq

/-- `struct SoftBreakManager`. -/
structure SoftBreakManager where
  breaks : List SoftBreakPoint
deriving Repr, DecidableEq

/-- `SoftBreakManager::add`: creates the break-position marker with right
affinity. -/
def SoftBreakManager.add (sm : SoftBreakManager) (ml : MarkerList)
    (ns pos indent : Nat) : SoftBreakManager × MarkerList :=
  let c := ml.create pos false
  (⟨sm.breaks ++ [⟨ns, c.1, indent⟩]⟩, c.2)

/-! ## In-place save pipeline, modelled from the spec (§4.5)

`TextBuffer::save_with_inplace_write` is not part of the source tree (only
its end-to-end tests are), so the in-place write strategy is modelled from
the spec: materialise the full target contents into a side temp file while
the destination is still intact, then truncate the destination and stream the
temp file into it.  Paths are modelled as naturals and the filesystem as a
total map from paths to contents. -/

/-- One operation of the save recipe (§6 recipe grammar). -/
inductive WriteOp where
  | literal (bytes : List Nat)
  | copyFromFile (path : Nat) (offset len : Nat)
deriving Repr, DecidableEq

/-- Does a recipe operation read from the given path? -/
def opReadsFrom : WriteOp → Nat → Bool
  | .literal _, _ => false
  | .copyFromFile q _ _, p => q == p

/-- Modelled from the spec: resolving one recipe operation against a
filesystem state (a `Literal` is its bytes, a Copy is `read_range`). -/
def WriteOp.resolve (fs : Nat → List Nat) : WriteOp → List Nat
  | .literal bs => bs
  | .copyFromFile p off len => ((fs p).drop off).take len

/-- Primitive filesystem steps the pipeline executes, in order. -/
inductive Instr where
  | appendLit (dst : Nat) (bytes : List Nat)
  | appendCopy (dst src : Nat) (offset len : Nat)
  | copyAll (dst src : Nat)
  | truncate (path : Nat)
deriving Repr, DecidableEq

/-- Does an instruction read from the given path? -/
def instrReadsFrom : Instr → Nat → Bool
  | .appendLit _ _, _ => false
  | .appendCopy _ src _ _, p => src == p
  | .copyAll _ src, p => src == p
  | .truncate _, _ => false

/-- Effect of one instruction on the filesystem. -/
def Instr.exec (fs : Nat → List Nat) : Instr → Nat → List Nat
  | .appendLit dst bs => fun p => if p = dst then fs dst ++ bs else fs p
  | .appendCopy dst src off len =>
      fun p => if p = dst then fs dst ++ ((fs src).drop off).take len else fs p
  | .copyAll dst src => fun p => if p = dst then fs dst ++ fs src else fs p
  | .truncate q => fun p => if p = q then [] else fs p

/-- Execute a list of instructions in order. -/
def execAll (fs : Nat → List Nat) (l : List Instr) : Nat → List Nat :=
  l.foldl Instr.exec fs

/-- Materialise one recipe operation into the side temp file. -/
def stageOp (temp : Nat) : WriteOp → Instr
  | .literal bs => .appendLit temp bs
  | .copyFromFile p off len => .appendCopy temp p off len

/-- Modelled from the spec: the in-place streaming save plan (§4.5): start a
fresh temp file, materialise the whole recipe into it (reading Copy sources,
including the destination, while the destination is intact), only then
truncate the destination and stream the temp file into it. -/
def inPlacePlan (dest temp : Nat) (recipe : List WriteOp) : List Instr :=
  Instr.truncate temp ::
    (recipe.map (stageOp temp) ++
      [Instr.truncate dest, Instr.copyAll dest temp])

theorem execAll_stage (temp : Nat) (recipe : List WriteOp) :
    ∀ fs : Nat → List Nat, (∀ op ∈ recipe, opReadsFrom op temp = false) →
      ∀ p, execAll fs (recipe.map (stageOp temp)) p =
        if p = temp then fs temp ++ (recipe.map (WriteOp.resolve fs)).flatten
        else fs p := by
  induction recipe with
  | nil =>
      intro fs _ p
      simp only [List.map_nil, execAll, List.foldl_nil, List.flatten_nil,
        List.append_nil]
      split
      · rename_i hp; rw [hp]
      · rfl
  | cons op rest ih =>
      intro fs h p
      have hrest : ∀ o ∈ rest, opReadsFrom o temp = false := fun o ho =>
        h o (by simp [ho])
      have hfs1 : ∀ q, Instr.exec fs (stageOp temp op) q =
          if q = temp then fs temp ++ op.resolve fs else fs q := by
        intro q
        cases op with
        | literal bs => rfl
        | copyFromFile pth off len => rfl
      have hres : ∀ o ∈ rest,
          WriteOp.resolve (Instr.exec fs (stageOp temp op)) o =
            WriteOp.resolve fs o := by
        intro o ho
        cases o with
        | literal bs => rfl
        | copyFromFile q off len =>
            have hq : (q == temp) = false := hrest _ ho
            simp only [WriteOp.resolve, hfs1 q, beq_eq_false_iff_ne] at hq ⊢
            rw [if_neg hq]
      have hstep : execAll fs (List.map (stageOp temp) (op :: rest)) p =
          execAll (Instr.exec fs (stageOp temp op))
            (List.map (stageOp temp) rest) p := rfl
      rw [hstep, ih (Instr.exec fs (stageOp temp op)) hrest p]
      by_cases hp : p = temp
      · rw [if_pos hp, if_pos hp, hfs1 temp, if_pos rfl,
          List.map_congr_left hres]
        simp [List.flatten_cons]
      · rw [if_neg hp, if_neg hp, hfs1 p, if_neg hp]

/-! ## Claim theorems -/

/-- Claim C1: for every buffer instance (any chunk size `N > 0`, any initial
bytes) and every operation sequence whose inserts land at offsets at most the
current length and whose deletes start inside the document, the bytes
observed by collecting the whole `ChunkTree` after the sequence equal the
bytes produced by the naive `Vec<u8>` splicing oracle. -/
theorem claim_oracle_equivalence (N : Nat) (hN : 0 < N) (init : List Nat)
    (ops : List BufOp) (g : Nat) (h : opsInBounds init ops = true) :
    (treeRun (ChunkTree.fromSlice N init) ops).collectBytes g =
      oracleRun init ops := by
  refine (treeRun_oracle g ops (ChunkTree.fromSlice N init) init ?_ ?_ ?_ h).1
  · exact ChunkTreeNode.fromSlice_sizesOK N init
  · exact ChunkTreeNode.fromSlice_gapFree N init
  · exact ChunkTreeNode.fromSlice_collect N init g

/-- Witness for C1 at a concrete buffer and operation sequence. -/
theorem claim_oracle_equivalence_witness :
    0 < 2 ∧
    opsInBounds [5, 6] [BufOp.ins 1 [7, 8], BufOp.del 0 2] = true ∧
    (treeRun (ChunkTree.fromSlice 2 [5, 6])
        [BufOp.ins 1 [7, 8], BufOp.del 0 2]).collectBytes 0 =
      oracleRun [5, 6] [BufOp.ins 1 [7, 8], BufOp.del 0 2] :=
  ⟨by decide, by decide,
    claim_oracle_equivalence 2 (by decide) [5, 6] _ 0 (by decide)⟩

/-- Claim C3: after any sequence of insert and remove operations with
well-formed delete ranges (sparse inserts included), every reachable
`Internal` node of the resulting tree caches `size = left.len() + mid.len() +
right.len()`.  `ChunkTree` caches no newline aggregate, so the byte aggregate
is the entire invariant for this tree. -/
theorem claim_aggregate_invariant (N : Nat) (hN : 0 < N) (init : List Nat)
    (ops : List BufOp) (h : delRangesWF ops = true) :
    sizesOK (treeRun (ChunkTree.fromSlice N init) ops).root = true :=
  treeRun_sizesOK ops _ (ChunkTreeNode.fromSlice_sizesOK N init) h

/-- Witness for C3 on a sequence with a sparse insert and a clamped delete. -/
theorem claim_aggregate_invariant_witness :
    0 < 2 ∧ delRangesWF [BufOp.ins 9 [1], BufOp.del 2 11] = true ∧
    sizesOK (treeRun (ChunkTree.fromSlice 2 [5, 6])
        [BufOp.ins 9 [1], BufOp.del 2 11]).root = true :=
  ⟨by decide, by decide,
    claim_aggregate_invariant 2 (by decide) [5, 6] _ (by decide)⟩

/-- Claim C4: the tree is persistent with structural sharing.  An insert or
remove returns a new root built around the untouched subtrees of the old tree
(the `Arc::clone` edges of the source are term-level reuse in the model).
For insert, each of the three `Internal` branches reuses verbatim the two
children it does not descend into: left-descent reuses `mid` and `right`,
mid-descent reuses `left` and `right`, right-descent reuses `left` and `mid`.
For remove (on well-formed ranges `rs ≤ re`), a child is cloned — reused
verbatim — exactly when the range shifted to it starts at or past it: the
range starting at or after the left child shares `left`; at or after the mid
child's end shares `left` and `mid`; at or after the right child's end shares
all three children; a remove starting at or past the whole tree's length
shares the entire root.  A sparse insert keeps the whole old root as the left
child of the new root.  The old tree value itself is never mutated: every
operation takes `&self` and the embedding is a pure function of it. -/
theorem claim_persistence_sharing (N : Nat) (hN : 0 < N) :
    (∀ l m r : ChunkTreeNode, ∀ s i : Nat, ∀ d : List Nat, i ≤ nodeLen l →
        ChunkTreeNode.insert N (.Internal l m r s) i d =
          .Internal (ChunkTreeNode.insert N l i d) m r
            (nodeLen (ChunkTreeNode.insert N l i d) + nodeLen m +
              nodeLen r)) ∧
    (∀ l m r : ChunkTreeNode, ∀ s i : Nat, ∀ d : List Nat,
        nodeLen l < i → i ≤ nodeLen l + nodeLen m →
        ChunkTreeNode.insert N (.Internal l m r s) i d =
          .Internal l (ChunkTreeNode.insert N m (i - nodeLen l) d) r
            (nodeLen l + nodeLen (ChunkTreeNode.insert N m (i - nodeLen l) d) +
              nodeLen r)) ∧
    (∀ l m r : ChunkTreeNode, ∀ s i : Nat, ∀ d : List Nat,
        nodeLen l + nodeLen m < i → i ≤ nodeLen l + nodeLen m + nodeLen r →
        ChunkTreeNode.insert N (.Internal l m r s) i d =
          .Internal l m
            (ChunkTreeNode.insert N r (i - nodeLen l - nodeLen m) d)
            (nodeLen l + nodeLen m +
              nodeLen (ChunkTreeNode.insert N r
                (i - nodeLen l - nodeLen m) d))) ∧
    (∀ l m r : ChunkTreeNode, ∀ s rs re : Nat, 0 < s → rs ≤ re → rs ≤ s →
        nodeLen l ≤ rs →
        ∃ m2 r2, ChunkTreeNode.remove N (.Internal l m r s) (rs, re) =
          .Internal l m2 r2 (nodeLen l + nodeLen m2 + nodeLen r2)) ∧
    (∀ l m r : ChunkTreeNode, ∀ s rs re : Nat, 0 < s → rs ≤ re → rs ≤ s →
        nodeLen l + nodeLen m ≤ rs →
        ∃ r2, ChunkTreeNode.remove N (.Internal l m r s) (rs, re) =
          .Internal l m r2 (nodeLen l + nodeLen m + nodeLen r2)) ∧
    (∀ l m r : ChunkTreeNode, ∀ s rs re : Nat, 0 < s → rs ≤ re → rs ≤ s →
        nodeLen l + nodeLen m + nodeLen r ≤ rs →
        ChunkTreeNode.remove N (.Internal l m r s) (rs, re) =
          .Internal l m r (nodeLen l + nodeLen m + nodeLen r)) ∧
    (∀ t : ChunkTree N, ∀ rs re : Nat, t.len ≤ rs →
        (t.remove (rs, re)).root = t.root) ∧
    (∀ t : ChunkTree N, ∀ i : Nat, ∀ d : List Nat, t.len < i →
        (t.insert i d).root =
          .Internal t.root (.Gap (i - t.len)) (ChunkTreeNode.fromSlice N d)
            (i + d.length)) := by
  refine ⟨?_, ?_, ?_, ?_, ?_, ?_, ?_, ?_⟩
  · intro l m r s i d hi
    simp only [ChunkTreeNode.insert]
    rw [if_pos hi]
  · intro l m r s i d h1 h2
    simp only [ChunkTreeNode.insert]
    rw [if_neg (by omega : ¬ i ≤ nodeLen l), if_pos h2]
  · intro l m r s i d h1 h2
    simp only [ChunkTreeNode.insert]
    rw [if_neg (by omega : ¬ i ≤ nodeLen l),
      if_neg (by omega : ¬ i ≤ nodeLen l + nodeLen m), if_pos h2]
  · intro l m r s rs re hs hre hrs hll
    simp only [ChunkTreeNode.remove, rangeCap, rangeShiftLeft]
    rw [if_neg (by simp only [nodeLen]; omega),
      if_neg (by omega : ¬ s < rs), if_neg (by omega : ¬ rs < nodeLen l)]
    exact ⟨_, _, rfl⟩
  · intro l m r s rs re hs hre hrs hlm
    simp only [ChunkTreeNode.remove, rangeCap, rangeShiftLeft]
    rw [if_neg (by simp only [nodeLen]; omega),
      if_neg (by omega : ¬ s < rs), if_neg (by omega : ¬ rs < nodeLen l),
      if_neg (by omega : ¬ rs - nodeLen l < nodeLen m)]
    exact ⟨_, rfl⟩
  · intro l m r s rs re hs hre hrs hlmr
    simp only [ChunkTreeNode.remove, rangeCap, rangeShiftLeft]
    rw [if_neg (by simp only [nodeLen]; omega),
      if_neg (by omega : ¬ s < rs), if_neg (by omega : ¬ rs < nodeLen l),
      if_neg (by omega : ¬ rs - nodeLen l < nodeLen m),
      if_neg (by omega : ¬ rs - (nodeLen l + nodeLen m) < nodeLen r)]
  · intro t rs re h
    unfold ChunkTree.remove
    rw [if_neg (by omega : ¬ (rs, re).1 < t.len)]
  · intro t i d h
    unfold ChunkTree.insert
    rw [if_neg (by omega)]

/-- Witness for C4, instantiating every sharing equation concretely on the
tree `Internal (Leaf [1,2]) (Leaf [3]) (Leaf [4]) 4`. -/
theorem claim_persistence_sharing_witness :
    (ChunkTreeNode.insert 2
        (.Internal (.Leaf [1, 2]) (.Leaf [3]) (.Leaf [4]) 4) 1 [9] =
      .Internal (ChunkTreeNode.insert 2 (.Leaf [1, 2]) 1 [9]) (.Leaf [3])
        (.Leaf [4])
        (nodeLen (ChunkTreeNode.insert 2 (.Leaf [1, 2]) 1 [9]) +
          nodeLen (.Leaf [3]) + nodeLen (.Leaf [4]))) ∧
    (ChunkTreeNode.insert 2
        (.Internal (.Leaf [1, 2]) (.Leaf [3]) (.Leaf [4]) 4) 3 [9] =
      .Internal (.Leaf [1, 2]) (ChunkTreeNode.insert 2 (.Leaf [3]) 1 [9])
        (.Leaf [4])
        (nodeLen (.Leaf [1, 2]) +
          nodeLen (ChunkTreeNode.insert 2 (.Leaf [3]) 1 [9]) +
          nodeLen (.Leaf [4]))) ∧
    (ChunkTreeNode.insert 2
        (.Internal (.Leaf [1, 2]) (.Leaf [3]) (.Leaf [4]) 4) 4 [9] =
      .Internal (.Leaf [1, 2]) (.Leaf [3])
        (ChunkTreeNode.insert 2 (.Leaf [4]) 1 [9])
        (nodeLen (.Leaf [1, 2]) + nodeLen (.Leaf [3]) +
          nodeLen (ChunkTreeNode.insert 2 (.Leaf [4]) 1 [9]))) ∧
    (∃ m2 r2, ChunkTreeNode.remove 2
        (.Internal (.Leaf [1, 2]) (.Leaf [3]) (.Leaf [4]) 4) (2, 3) =
      .Internal (.Leaf [1, 2]) m2 r2
        (nodeLen (.Leaf [1, 2]) + nodeLen m2 + nodeLen r2)) ∧
    (∃ r2, ChunkTreeNode.remove 2
        (.Internal (.Leaf [1, 2]) (.Leaf [3]) (.Leaf [4]) 4) (3, 4) =
      .Internal (.Leaf [1, 2]) (.Leaf [3]) r2
        (nodeLen (.Leaf [1, 2]) + nodeLen (.Leaf [3]) + nodeLen r2)) ∧
    (ChunkTreeNode.remove 2
        (.Internal (.Leaf [1, 2]) (.Leaf [3]) (.Leaf [4]) 4) (4, 5) =
      .Internal (.Leaf [1, 2]) (.Leaf [3]) (.Leaf [4]) 4) ∧
    ((ChunkTree.remove (N := 2) ⟨.Leaf [1, 2]⟩ (2, 3)).root =
      ChunkTreeNode.Leaf [1, 2]) ∧
    ((ChunkTree.insert (N := 2) ⟨.Leaf [1, 2]⟩ 4 [9]).root =
      .Internal (.Leaf [1, 2]) (.Gap 2) (ChunkTreeNode.fromSlice 2 [9]) 5) :=
  ⟨(claim_persistence_sharing 2 (by decide)).1 _ _ _ 4 1 [9] (by decide),
   (claim_persistence_sharing 2 (by decide)).2.1 _ _ _ 4 3 [9] (by decide)
     (by decide),
   (claim_persistence_sharing 2 (by decide)).2.2.1 _ _ _ 4 4 [9] (by decide)
     (by decide),
   (claim_persistence_sharing 2 (by decide)).2.2.2.1 _ _ _ 4 2 3 (by decide)
     (by decide) (by decide) (by decide),
   (claim_persistence_sharing 2 (by decide)).2.2.2.2.1 _ _ _ 4 3 4
     (by decide) (by decide) (by decide) (by decide),
   (claim_persistence_sharing 2 (by decide)).2.2.2.2.2.1 _ _ _ 4 4 5
     (by decide) (by decide) (by decide) (by decide),
   (claim_persistence_sharing 2 (by decide)).2.2.2.2.2.2.1 ⟨.Leaf [1, 2]⟩ 2 3
     (by decide),
   (claim_persistence_sharing 2 (by decide)).2.2.2.2.2.2.2 ⟨.Leaf [1, 2]⟩ 4
     [9] (by decide)⟩

/-- Claim C10: an insert at an index strictly beyond the length succeeds
sparsely — the result has length `index + data.len()` and collects to the old
bytes, then `index - len` copies of the gap value, then the new data — and a
remove whose range starts at or past the length returns a tree sharing the
same root with unchanged content. -/
theorem claim_sparse_operations (N : Nat) (hN : 0 < N) (t : ChunkTree N)
    (g : Nat) :
    (∀ i d, t.len < i →
        (t.insert i d).len = i + d.length ∧
        (t.insert i d).collectBytes g =
          t.collectBytes g ++ List.replicate (i - t.len) g ++ d) ∧
    (∀ s e, t.len ≤ s →
        (t.remove (s, e)).root = t.root ∧
        (t.remove (s, e)).collectBytes g = t.collectBytes g) := by
  constructor
  · intro i d hi
    unfold ChunkTree.insert
    rw [if_neg (by omega)]
    exact ⟨rfl, by
      simp [ChunkTree.collectBytes, collectBytesInto,
        ChunkTreeNode.fromSlice_collect]⟩
  · intro s e hsle
    unfold ChunkTree.remove
    rw [if_neg (by omega : ¬ (s, e).1 < t.len)]
    exact ⟨rfl, rfl⟩

/-- Witness for C10: sparse insert and sparse remove on a concrete tree. -/
theorem claim_sparse_operations_witness :
    ((ChunkTree.insert (N := 2) ⟨.Leaf [1, 2]⟩ 4 [9]).len = 5 ∧
      (ChunkTree.insert (N := 2) ⟨.Leaf [1, 2]⟩ 4 [9]).collectBytes 0 =
        [1, 2] ++ List.replicate 2 0 ++ [9]) ∧
    ((ChunkTree.remove (N := 2) ⟨.Leaf [1, 2]⟩ (2, 5)).root =
        ChunkTreeNode.Leaf [1, 2] ∧
      (ChunkTree.remove (N := 2) ⟨.Leaf [1, 2]⟩ (2, 5)).collectBytes 0 =
        ChunkTree.collectBytes (N := 2) ⟨.Leaf [1, 2]⟩ 0) :=
  ⟨(claim_sparse_operations 2 (by decide) ⟨.Leaf [1, 2]⟩ 0).1 4 [9]
      (by decide),
   (claim_sparse_operations 2 (by decide) ⟨.Leaf [1, 2]⟩ 0).2 2 5
      (by decide)⟩

/-- Counterexample to claim C5 as stated: inserting at `len() + 1` on a
`ChunkTree` does not fail with `OutOfRange` and does not leave the buffer
unchanged — the documented sparse insert succeeds, growing the tree and
introducing a gap byte.  (`ChunkTree` has no error path at all.) -/
theorem claim_insert_out_of_range_cex :
    ((ChunkTree.fromSlice 2 [10, 11]).insert 3 [12]).len = 4 ∧
    ((ChunkTree.fromSlice 2 [10, 11]).insert 3 [12]).collectBytes 0 =
      [10, 11, 0, 12] ∧
    ((ChunkTree.fromSlice 2 [10, 11]).insert 3 [12]).collectBytes 0 ≠
      (ChunkTree.fromSlice 2 [10, 11]).collectBytes 0 := by
  refine ⟨?_, ?_, ?_⟩ <;>
    simp [ChunkTree.fromSlice, ChunkTree.insert, ChunkTree.len,
      ChunkTree.collectBytes, ChunkTreeNode.fromSlice, nodeLen,
      collectBytesInto, List.replicate]

/-- Claim C5 (amended): insert at offset `0` and at `len()` succeed, splicing
the bytes at the front and at the back; insert at `len() + 1` also succeeds —
as a sparse insert that adds one gap byte (rendered as the gap value) before
the new bytes and yields length `len() + 1 + data.len()` — instead of
failing with an `OutOfRange` error. -/
theorem claim_insert_boundaries_amended (N : Nat) (hN : 0 < N) (g : Nat)
    (t : ChunkTree N) (d : List Nat) (hs : sizesOK t.root = true)
    (hg : gapFree t.root = true) :
    (t.insert 0 d).collectBytes g = d ++ t.collectBytes g ∧
    (t.insert t.len d).collectBytes g = t.collectBytes g ++ d ∧
    (t.insert (t.len + 1) d).collectBytes g =
      t.collectBytes g ++ [g] ++ d ∧
    (t.insert (t.len + 1) d).len = t.len + 1 + d.length := by
  have hlen := ChunkTree.len_eq_length_collect t g hs
  refine ⟨?_, ?_, ?_, ?_⟩
  · rw [ChunkTree.tree_insert_collect t 0 d g hs hg (Nat.zero_le _)]
    simp [spliceIn]
  · rw [ChunkTree.tree_insert_collect t t.len d g hs hg (le_refl _), hlen]
    simp [spliceIn, List.take_length, List.drop_length]
  · unfold ChunkTree.insert
    rw [if_neg (by omega)]
    have h1 : t.len + 1 - t.len = 1 := by omega
    simp [ChunkTree.collectBytes, collectBytesInto, h1, List.replicate,
      ChunkTreeNode.fromSlice_collect]
  · unfold ChunkTree.insert
    rw [if_neg (by omega)]
    rfl

/-- Witness for the amended C5 on a concrete tree. -/
theorem claim_insert_boundaries_amended_witness :
    0 < 2 ∧ sizesOK (ChunkTreeNode.Leaf [1, 2]) = true ∧
    gapFree (ChunkTreeNode.Leaf [1, 2]) = true ∧
    ((ChunkTree.insert (N := 2) ⟨.Leaf [1, 2]⟩ 0 [9]).collectBytes 7 =
        [9] ++ ChunkTree.collectBytes (N := 2) ⟨.Leaf [1, 2]⟩ 7 ∧
      (ChunkTree.insert (N := 2) ⟨.Leaf [1, 2]⟩
          (ChunkTree.len (N := 2) ⟨.Leaf [1, 2]⟩) [9]).collectBytes 7 =
        ChunkTree.collectBytes (N := 2) ⟨.Leaf [1, 2]⟩ 7 ++ [9] ∧
      (ChunkTree.insert (N := 2) ⟨.Leaf [1, 2]⟩
          (ChunkTree.len (N := 2) ⟨.Leaf [1, 2]⟩ + 1) [9]).collectBytes 7 =
        ChunkTree.collectBytes (N := 2) ⟨.Leaf [1, 2]⟩ 7 ++ [7] ++ [9] ∧
      (ChunkTree.insert (N := 2) ⟨.Leaf [1, 2]⟩
          (ChunkTree.len (N := 2) ⟨.Leaf [1, 2]⟩ + 1) [9]).len =
        ChunkTree.len (N := 2) ⟨.Leaf [1, 2]⟩ + 1 + 1) :=
  ⟨by decide, by decide, by decide,
    claim_insert_boundaries_amended 2 (by decide) 7 ⟨.Leaf [1, 2]⟩ [9]
      (by decide) (by decide)⟩

/-- Claim C6: deleting the empty range `r..r` is a no-op on the collected
bytes for every buffer with consistent cached sizes, and deleting `s..e` with
`e` at or beyond the length produces exactly the same tree as deleting
`s..len()` (the range end is clamped). -/
theorem claim_remove_noop_clamp (N : Nat) (hN : 0 < N) (t : ChunkTree N)
    (g : Nat) (hs : sizesOK t.root = true) :
    (∀ r, (t.remove (r, r)).collectBytes g = t.collectBytes g) ∧
    (∀ s e, t.len ≤ e → t.remove (s, e) = t.remove (s, t.len)) := by
  have hlen := ChunkTree.len_eq_length_collect t g hs
  constructor
  · intro r
    rw [ChunkTree.tree_remove_collect t r r g hs (le_refl r)]
    unfold spliceOut
    rcases Nat.le_total r (t.collectBytes g).length with h | h
    · rw [Nat.min_eq_left h, List.take_append_drop]
    · rw [Nat.min_eq_right h, List.drop_length, List.take_of_length_le h,
        List.append_nil]
  · intro s e he
    unfold ChunkTree.remove
    by_cases hc : s < t.len
    · rw [if_pos (by exact hc : (s, e).1 < t.len),
        if_pos (by exact hc : (s, t.len).1 < t.len)]
      have : min (nodeLen t.root) e = min (nodeLen t.root) t.len := by
        have : t.len = nodeLen t.root := rfl
        omega
      rw [this]
    · rw [if_neg (by exact hc : ¬ (s, e).1 < t.len),
        if_neg (by exact hc : ¬ (s, t.len).1 < t.len)]

/-- Witness for C6 on a concrete tree. -/
theorem claim_remove_noop_clamp_witness :
    0 < 2 ∧ sizesOK (ChunkTreeNode.Leaf [1, 2]) = true ∧
    (ChunkTree.remove (N := 2) ⟨.Leaf [1, 2]⟩ (1, 1)).collectBytes 0 =
      ChunkTree.collectBytes (N := 2) ⟨.Leaf [1, 2]⟩ 0 ∧
    ChunkTree.remove (N := 2) ⟨.Leaf [1, 2]⟩ (1, 9) =
      ChunkTree.remove (N := 2) ⟨.Leaf [1, 2]⟩
        (1, ChunkTree.len (N := 2) ⟨.Leaf [1, 2]⟩) :=
  ⟨by decide, by decide,
    (claim_remove_noop_clamp 2 (by decide) ⟨.Leaf [1, 2]⟩ 0 (by decide)).1 1,
    (claim_remove_noop_clamp 2 (by decide) ⟨.Leaf [1, 2]⟩ 0 (by decide)).2 1 9
      (by decide)⟩

/-- Counterexample to claim C7 as stated: on a buffer containing a gap (from
the documented sparse insert), inserting into the gap interior overwrites gap
bytes instead of shifting them, so insert-then-delete does not restore the
original bytes.  Here the buffer collects to `[0, 0, 7]` (gap value 0), the
offset `1` is at most `len() = 3`, yet after `insert(1, [8])` and
`remove(1..2)` the buffer collects to `[0, 7]`. -/
theorem claim_insert_delete_roundtrip_cex :
    1 ≤ ((ChunkTree.fromSlice 2 []).insert 2 [7]).len ∧
    ((((ChunkTree.fromSlice 2 []).insert 2 [7]).insert 1 [8]).remove
        (1, 1 + [8].length)).collectBytes 0 = [0, 7] ∧
    ((ChunkTree.fromSlice 2 []).insert 2 [7]).collectBytes 0 = [0, 0, 7] := by
  refine ⟨?_, ?_, ?_⟩ <;>
    simp [ChunkTree.fromSlice, ChunkTree.insert, ChunkTree.remove,
      ChunkTree.len, ChunkTree.collectBytes, ChunkTreeNode.fromSlice,
      ChunkTreeNode.insert, ChunkTreeNode.remove, rangeCap, rangeShiftLeft,
      rangeLen, nodeLen, collectBytesInto, List.replicate]

/-- Claim C7 (amended): for every gap-free buffer (one whose history contains
no sparse insert) with consistent cached sizes, every offset at most the
length and every byte string, inserting the string and then deleting the
range it occupies restores the original collected bytes.  On buffers with
gaps the law fails (see the counterexample): an insert into a gap interior
consumes gap bytes. -/
theorem claim_insert_delete_roundtrip_amended (N : Nat) (hN : 0 < N)
    (t : ChunkTree N) (off : Nat) (s : List Nat) (g : Nat)
    (hs : sizesOK t.root = true) (hg : gapFree t.root = true)
    (hoff : off ≤ t.len) :
    ((t.insert off s).remove (off, off + s.length)).collectBytes g =
      t.collectBytes g := by
  have hlen := ChunkTree.len_eq_length_collect t g hs
  have h1 := ChunkTree.tree_insert_collect t off s g hs hg hoff
  have hs1 : sizesOK (t.insert off s).root = true :=
    ChunkTree.tree_insert_sizesOK t off s hs
  have h2 := ChunkTree.tree_remove_collect (t.insert off s) off (off + s.length) g
    hs1 (by omega)
  rw [h2, h1]
  have hL : (spliceIn (t.collectBytes g) off s).length =
      (t.collectBytes g).length + s.length := by
    simp only [spliceIn, List.length_append, List.length_take,
      List.length_drop]
    omega
  rw [hL, Nat.min_eq_left (by omega)]
  have h1 : ((t.collectBytes g).take off).length = off := by
    simp only [List.length_take]
    omega
  have hX : ((t.collectBytes g).take off ++ s).length = off + s.length := by
    simp only [List.length_append, h1]
  have hT : (((t.collectBytes g).take off ++ s) ++
      (t.collectBytes g).drop off).take off = (t.collectBytes g).take off := by
    rw [List.append_assoc, List.take_left' h1]
  have hD : (((t.collectBytes g).take off ++ s) ++
      (t.collectBytes g).drop off).drop (off + s.length) =
      (t.collectBytes g).drop off := by
    rw [List.drop_left' hX]
  unfold spliceIn spliceOut
  rw [hT, hD, List.take_append_drop]

/-- Witness for the amended C7 on a concrete gap-free tree. -/
theorem claim_insert_delete_roundtrip_amended_witness :
    0 < 2 ∧ sizesOK (ChunkTreeNode.Leaf [1, 2]) = true ∧
    gapFree (ChunkTreeNode.Leaf [1, 2]) = true ∧
    1 ≤ ChunkTree.len (N := 2) ⟨.Leaf [1, 2]⟩ ∧
    ((ChunkTree.insert (N := 2) ⟨.Leaf [1, 2]⟩ 1 [8, 9]).remove
        (1, 1 + [8, 9].length)).collectBytes 0 =
      ChunkTree.collectBytes (N := 2) ⟨.Leaf [1, 2]⟩ 0 :=
  ⟨by decide, by decide, by decide, by decide,
    claim_insert_delete_roundtrip_amended 2 (by decide) ⟨.Leaf [1, 2]⟩ 1
      [8, 9] 0 (by decide) (by decide) (by decide)⟩

/-- Counterexample to claim C8 as stated: `from_slice` places a zero-length
`Leaf` as the middle child of every split node, so a non-sentinel tree (here
of length 3) contains a reachable empty leaf. -/
theorem claim_no_empty_piece_cex :
    hasEmptyLeaf (ChunkTreeNode.fromSlice 2 [1, 2, 3]) = true ∧
    nodeLen (ChunkTreeNode.fromSlice 2 [1, 2, 3]) = 3 := by
  constructor <;>
    simp [ChunkTreeNode.fromSlice, hasEmptyLeaf, nodeLen]

/-- Claim C8 (amended): zero-length leaves do occur outside the sentinel
empty tree — whenever `from_slice` splits data longer than `N`, the resulting
`Internal` node carries the empty `Leaf` as its middle child (and the node's
length is the non-zero data length). -/
theorem claim_empty_mid_leaf_amended (N : Nat) (hN : 0 < N) (d : List Nat)
    (hlen : N < d.length) :
    ChunkTreeNode.fromSlice N d =
      .Internal (ChunkTreeNode.fromSlice N (d.take (d.length / 2))) (.Leaf [])
        (ChunkTreeNode.fromSlice N (d.drop (d.length / 2))) d.length := by
  rw [ChunkTreeNode.fromSlice]
  rw [dif_neg (by omega : ¬ N = 0), if_neg (by omega : ¬ d.length ≤ N)]

/-- Witness for the amended C8. -/
theorem claim_empty_mid_leaf_amended_witness :
    0 < 2 ∧ 2 < ([1, 2, 3] : List Nat).length ∧
    ChunkTreeNode.fromSlice 2 [1, 2, 3] =
      .Internal (ChunkTreeNode.fromSlice 2 [1]) (.Leaf [])
        (ChunkTreeNode.fromSlice 2 [2, 3]) 3 :=
  ⟨by decide, by decide,
    claim_empty_mid_leaf_amended 2 (by decide) [1, 2, 3] (by decide)⟩

/-- Claim C9: `ConcealManager::add` and `FoldManager::add` create their
range-start marker with left affinity (`true`) and their range-end marker
with right affinity (`false`), and `SoftBreakManager::add` creates its
point-like break marker with right affinity; each add appends exactly those
marker entries and the corresponding range record. -/
theorem claim_marker_affinities :
    (∀ (cm : ConcealManager) (ml : MarkerList) (ns : Nat) (range : Nat × Nat)
        (repl : Option (List Nat)),
        cm.add ml ns range repl =
          (⟨cm.ranges ++ [⟨ns, ml.nextId, ml.nextId + 1, repl⟩]⟩,
            ⟨ml.entries ++ [(ml.nextId, ⟨range.1, true⟩),
              (ml.nextId + 1, ⟨range.2, false⟩)], ml.nextId + 2⟩)) ∧
    (∀ (fm : FoldManager) (ml : MarkerList) (start stop : Nat)
        (ph : Option (List Nat)), start < stop →
        fm.add ml start stop ph =
          (⟨fm.ranges ++ [⟨ml.nextId, ml.nextId + 1, ph⟩]⟩,
            ⟨ml.entries ++ [(ml.nextId, ⟨start, true⟩),
              (ml.nextId + 1, ⟨stop, false⟩)], ml.nextId + 2⟩)) ∧
    (∀ (sm : SoftBreakManager) (ml : MarkerList) (ns pos indent : Nat),
        sm.add ml ns pos indent =
          (⟨sm.breaks ++ [⟨ns, ml.nextId, indent⟩]⟩,
            ⟨ml.entries ++ [(ml.nextId, ⟨pos, false⟩)], ml.nextId + 1⟩)) := by
  refine ⟨?_, ?_, ?_⟩
  · intro cm ml ns range repl
    simp [ConcealManager.add, MarkerList.create]
  · intro fm ml start stop ph h
    rw [FoldManager.add, if_neg (by omega : ¬ stop ≤ start)]
    simp [MarkerList.create]
  · intro sm ml ns pos indent
    simp [SoftBreakManager.add, MarkerList.create]

/-- Witness for C9 at concrete managers, marker lists and positions. -/
theorem claim_marker_affinities_witness :
    (ConcealManager.add ⟨[]⟩ ⟨[], 0⟩ 5 (1, 3) none =
      (⟨[⟨5, 0, 1, none⟩]⟩,
        ⟨[(0, ⟨1, true⟩), (1, ⟨3, false⟩)], 2⟩)) ∧
    (FoldManager.add ⟨[]⟩ ⟨[], 0⟩ 1 3 none =
      (⟨[⟨0, 1, none⟩]⟩, ⟨[(0, ⟨1, true⟩), (1, ⟨3, false⟩)], 2⟩)) ∧
    (SoftBreakManager.add ⟨[]⟩ ⟨[], 0⟩ 5 4 2 =
      (⟨[⟨5, 0, 2⟩]⟩, ⟨[(0, ⟨4, false⟩)], 1⟩)) :=
  ⟨claim_marker_affinities.1 ⟨[]⟩ ⟨[], 0⟩ 5 (1, 3) none,
   claim_marker_affinities.2.1 ⟨[]⟩ ⟨[], 0⟩ 1 3 none (by decide),
   claim_marker_affinities.2.2 ⟨[]⟩ ⟨[], 0⟩ 5 4 2⟩

/-- Claim C2: in the spec-modelled in-place save, the destination is
truncated exactly once, after all staging steps, and no instruction that
reads from the destination — in particular no Copy whose source is the save
destination — executes after that truncation (the only later instruction
streams the side temp file, and `temp ≠ dest`).  Moreover, for a file of `n`
bytes edited by an 8-byte insertion at offset 0 (recipe: the literal, then a
Copy of the whole original from the destination), the saved destination holds
`n + 8` bytes whose suffix after the first 8 bytes is exactly the original
file — the unedited middle and tail survive. -/
theorem claim_inplace_save_order (dest temp : Nat) (recipe : List WriteOp)
    (fs : Nat → List Nat) (ins : List Nat) (hne : temp ≠ dest)
    (hins : ins.length = 8) :
    ((inPlacePlan dest temp recipe).take (recipe.length + 1) =
        Instr.truncate temp :: recipe.map (stageOp temp)) ∧
    (∀ instr ∈ (inPlacePlan dest temp recipe).take (recipe.length + 1),
        instr ≠ Instr.truncate dest) ∧
    ((inPlacePlan dest temp recipe).drop (recipe.length + 1) =
        [Instr.truncate dest, Instr.copyAll dest temp]) ∧
    (∀ instr ∈ (inPlacePlan dest temp recipe).drop (recipe.length + 2),
        instrReadsFrom instr dest = false) ∧
    (execAll fs (inPlacePlan dest temp
        [WriteOp.literal ins,
          WriteOp.copyFromFile dest 0 (fs dest).length]) dest =
      ins ++ fs dest ∧
    (execAll fs (inPlacePlan dest temp
        [WriteOp.literal ins,
          WriteOp.copyFromFile dest 0 (fs dest).length]) dest).length =
      (fs dest).length + 8 ∧
    (execAll fs (inPlacePlan dest temp
        [WriteOp.literal ins,
          WriteOp.copyFromFile dest 0 (fs dest).length]) dest).drop 8 =
      fs dest) := by
  have hmaplen : (recipe.map (stageOp temp)).length = recipe.length :=
    List.length_map recipe (stageOp temp)
  have htake : (inPlacePlan dest temp recipe).take (recipe.length + 1) =
      Instr.truncate temp :: recipe.map (stageOp temp) := by
    unfold inPlacePlan
    rw [List.take_succ_cons, List.take_left' hmaplen]
  have hdrop : (inPlacePlan dest temp recipe).drop (recipe.length + 1) =
      [Instr.truncate dest, Instr.copyAll dest temp] := by
    unfold inPlacePlan
    rw [List.drop_succ_cons, List.drop_left' hmaplen]
  refine ⟨htake, ?_, hdrop, ?_, ?_⟩
  · intro instr hmem
    rw [htake] at hmem
    rcases List.mem_cons.mp hmem with rfl | hmem
    · simp only [ne_eq, Instr.truncate.injEq]
      exact hne
    · obtain ⟨op, _, rfl⟩ := List.mem_map.mp hmem
      cases op <;> simp [stageOp]
  · intro instr hmem
    have : (inPlacePlan dest temp recipe).drop (recipe.length + 2) =
        [Instr.copyAll dest temp] := by
      have h2 : recipe.length + 2 = (recipe.length + 1) + 1 := rfl
      rw [h2, ← List.drop_drop, hdrop]
      rfl
    rw [this] at hmem
    rcases List.mem_singleton.mp hmem with rfl
    simp only [instrReadsFrom, beq_eq_false_iff_ne, ne_eq]
    exact hne
  · -- functional part, on the concrete two-operation recipe
    set recipe2 : List WriteOp :=
      [WriteOp.literal ins, WriteOp.copyFromFile dest 0 (fs dest).length]
      with hrecipe2
    have hnotemp : ∀ op ∈ recipe2, opReadsFrom op temp = false := by
      intro op hop
      rcases List.mem_cons.mp hop with rfl | hop
      · rfl
      · rcases List.mem_singleton.mp hop with rfl
        simp only [opReadsFrom, beq_eq_false_iff_ne, ne_eq]
        exact fun hdt => hne hdt.symm
    have hfs0 : ∀ q, Instr.exec fs (Instr.truncate temp) q =
        if q = temp then [] else fs q := fun q => rfl
    have hstage := execAll_stage temp recipe2
      (Instr.exec fs (Instr.truncate temp)) hnotemp
    have hfs0temp : Instr.exec fs (Instr.truncate temp) temp = [] := by
      rw [hfs0, if_pos rfl]
    have hfs0dest : Instr.exec fs (Instr.truncate temp) dest = fs dest := by
      rw [hfs0, if_neg (fun hdt => hne hdt.symm)]
    have hflat : (recipe2.map
        (WriteOp.resolve (Instr.exec fs (Instr.truncate temp)))).flatten =
        ins ++ fs dest := by
      rw [hrecipe2]
      simp only [List.map_cons, List.map_nil, WriteOp.resolve, hfs0dest,
        List.flatten_cons, List.flatten_nil, List.append_nil, List.drop_zero,
        List.take_length]
    have htemp1 : execAll (Instr.exec fs (Instr.truncate temp))
        (recipe2.map (stageOp temp)) temp = ins ++ fs dest := by
      rw [hstage temp, if_pos rfl, hfs0temp, hflat, List.nil_append]
    have hdest1 : execAll (Instr.exec fs (Instr.truncate temp))
        (recipe2.map (stageOp temp)) dest = fs dest := by
      rw [hstage dest, if_neg (fun hdt => hne hdt.symm), hfs0dest]
    have hrun : execAll fs (inPlacePlan dest temp recipe2) =
        Instr.exec (Instr.exec (execAll (Instr.exec fs (Instr.truncate temp))
            (recipe2.map (stageOp temp))) (Instr.truncate dest))
          (Instr.copyAll dest temp) := by
      unfold inPlacePlan execAll
      rw [List.foldl_cons, List.foldl_append]
      rfl
    have e1 : ∀ X : Nat → List Nat,
        Instr.exec X (Instr.copyAll dest temp) dest = X dest ++ X temp := by
      intro X
      simp [Instr.exec]
    have e2 : ∀ X : Nat → List Nat,
        Instr.exec X (Instr.truncate dest) dest = [] := by
      intro X
      simp [Instr.exec]
    have e3 : ∀ X : Nat → List Nat,
        Instr.exec X (Instr.truncate dest) temp = X temp := by
      intro X
      simp [Instr.exec, hne]
    have hval : execAll fs (inPlacePlan dest temp recipe2) dest =
        ins ++ fs dest := by
      rw [hrun, e1, e2, e3, htemp1, List.nil_append]
    refine ⟨hval, ?_, ?_⟩
    · rw [hval]
      simp only [List.length_append, hins]
      omega
    · rw [hval, List.drop_left' hins]

/-- Witness for C2 at a concrete filesystem, recipe, and 8-byte insertion. -/
theorem claim_inplace_save_order_witness :
    (1 : Nat) ≠ 0 ∧ ([2, 2, 2, 2, 2, 2, 2, 2] : List Nat).length = 8 ∧
    (execAll (fun p => if p = 0 then [9, 9, 9] else [])
        (inPlacePlan 0 1
          [WriteOp.literal [2, 2, 2, 2, 2, 2, 2, 2],
            WriteOp.copyFromFile 0 0
              ((fun p => if p = 0 then [9, 9, 9] else []) 0).length]) 0 =
      [2, 2, 2, 2, 2, 2, 2, 2] ++
        (fun p => if p = 0 then [9, 9, 9] else []) 0) ∧
    ((inPlacePlan 0 1 [WriteOp.literal [2, 2, 2, 2, 2, 2, 2, 2],
        WriteOp.copyFromFile 0 0 3]).drop 3 =
      [Instr.truncate 0, Instr.copyAll 0 1]) :=
  ⟨by decide, by decide,
    (claim_inplace_save_order 0 1
      [WriteOp.literal [2, 2, 2, 2, 2, 2, 2, 2], WriteOp.copyFromFile 0 0
        ((fun p => if p = 0 then [9, 9, 9] else []) 0).length]
      (fun p => if p = 0 then [9, 9, 9] else [])
      [2, 2, 2, 2, 2, 2, 2, 2] (by decide) (by decide)).2.2.2.2.1,
   (claim_inplace_save_order 0 1
      [WriteOp.literal [2, 2, 2, 2, 2, 2, 2, 2], WriteOp.copyFromFile 0 0 3]
      (fun p => if p = 0 then [9, 9, 9] else [])
      [2, 2, 2, 2, 2, 2, 2, 2] (by decide) (by decide)).2.2.1⟩

end Fresh
